import Mathlib

/-
Verification of the libhoney-go transmission engine specification against the
repository sources.

The repository provides two kinds of source material:
  * the `WriterOutput` sink (`Add`, `SendResponse`) — present in full and
    embedded here directly from its code;
  * the batching engine (`txDefaultClient`, `batchAgg` with `Add`, `Fire`,
    `fireBatch`, `encodeBatch`, reenqueueing and response mapping) — only its
    test suite is present.  Those parts are modelled from the specification
    (sections 4.1 to 4.4, 6 and 8), with the numeric wire ceiling chosen as
    documented below, and every such definition carries a doc comment starting
    with `Modelled from the spec:`.

Machine details deliberately abstracted: gzip compression (a request records
the uncompressed JSON array payload; the wire body is its gzip compression),
wall-clock time (durations are opaque naturals), and Go map key ordering
(field maps are association lists, serialized in list order; Go serializes
map keys sorted, so the lists stand for the sorted key sequence).
-/

namespace Libhoney

/-- A JSON-representable field value, as it appears in an Event's data map.
`unsupported` stands for a Go value that `encoding/json` cannot marshal
(for example a function value). -/
inductive JVal where
  | str (s : String)
  | num (n : Int)
  | unsupported
  deriving DecidableEq

/-- JSON string-escaping of a character sequence: quote and backslash are
escaped, all other characters pass through unchanged. -/
def escapeChars : List Char → List Char
  | [] => []
  | c :: rest =>
    (if c = '"' then ['\\', '"'] else if c = '\\' then ['\\', '\\'] else [c])
      ++ escapeChars rest

/-- JSON string-escaping on strings. -/
def jsonEscape (s : String) : String := String.mk (escapeChars s.data)

/-- A JSON string literal: quotes around the escaped content. -/
def jsonStr (s : String) : String := "\"" ++ jsonEscape s ++ "\""

/-- Serialize one field value. `unsupported` never reaches this point in the
batch path (it is filtered out) and makes the writer path fail. -/
def encodeJVal : JVal → String
  | .str s => jsonStr s
  | .num n => toString n
  | .unsupported => ""

/-- Serialize one data-map entry; `none` for a value json cannot marshal.
This mirrors the `marshallableMap` marshaller of the library, which skips
entries whose values fail to marshal. -/
def encodeEntry : String × JVal → Option String
  | (_, .unsupported) => none
  | (k, v) => some (jsonStr k ++ ":" ++ encodeJVal v)

/-- Comma-join a list of already serialized fragments. -/
def joinComma : List String → String
  | [] => ""
  | [x] => x
  | x :: rest => x ++ "," ++ joinComma rest

/-- Serialize a data map as a JSON object, skipping unmarshalable entries. -/
def encodeData (d : List (String × JVal)) : String :=
  "\x7b" ++ joinComma (d.filterMap encodeEntry) ++ "\x7d"

/-- One telemetry event.  `timestamp` is `none` for the Go zero time (which is
omitted from wire representations) and otherwise holds the rendered RFC3339
text of the time.  `metadata` is the opaque caller value that is round-tripped
into the Response. -/
structure Event where
  apiHost : String
  writeKey : String
  dataset : String
  sampleRate : Nat
  timestamp : Option String
  metadata : String
  data : List (String × JVal)
  deriving DecidableEq

/-- The destination key grouping events into wire batches, derived from
(APIHost, WriteKey, Dataset); the underscore-joined rendering matches the key
observed by the tests ("http://fakeHost:8080_written_ds1"). -/
def destKey (e : Event) : String :=
  e.apiHost ++ "_" ++ e.writeKey ++ "_" ++ e.dataset

/-- The wire serialization of one event inside a batch array: `data` always,
`samplerate` omitted when 1, `time` omitted when absent (spec section 4.4). -/
def encodeEvent (e : Event) : String :=
  "\x7b\"data\":" ++ encodeData e.data
    ++ (if e.sampleRate = 1 then "" else ",\"samplerate\":" ++ toString e.sampleRate)
    ++ (match e.timestamp with
        | none => ""
        | some ts => ",\"time\":\"" ++ ts ++ "\"")
    ++ "\x7d"

/-- The serialized size of one event's wire form, in bytes. -/
def eventSize (e : Event) : Nat := (encodeEvent e).length

/-- The serialized size of the JSON array for a whole group of events:
two brackets, the event bodies, and a comma between adjacent events. -/
def arraySize (l : List Event) : Nat :=
  if l.isEmpty then 2 else 1 + (((l.map eventSize).sum) + l.length)

/-- One per-event outcome record (spec section 3): status code 0 when the
event never reached the network, raw body bytes when an HTTP response was
received, wall-clock duration of the network call, the originating event's
metadata, and the error for local, transport or server-reported failures. -/
structure Response where
  statusCode : Nat
  body : String
  duration : Nat
  metadata : String
  err : Option String
  deriving DecidableEq

/-- Push a response onto a bounded channel: under blocking delivery the push
waits for room (modelled as always delivered); under non-blocking delivery it
is delivered only when the buffer has room, and otherwise dropped — the
returned flag is `true` exactly when the response was dropped.  This is the
delivery policy of spec section 4.2, and the exact shape of the
`WriterOutput.SendResponse` code in the source. -/
def chanPush (cap : Nat) (block : Bool) (ch : List Response) (r : Response) :
    List Response × Bool :=
  if block then (ch ++ [r], false)
  else if ch.length < cap then (ch ++ [r], false)
  else (ch, true)

/-- Modelled from the spec: the hard per-event byte ceiling (spec sections
4.4 and 8 give it as 100,000 bytes); the checking code (`encodeBatch`) is not
under src, only its tests. -/
def apiEventSizeMax : Nat := 100000

/-- Modelled from the spec: the per-batch wire-payload ceiling.  The constant
is not stated in the spec (design note: "choose a wire-batch ceiling ... that
reproduces the behavioral test outcomes, documenting the chosen constant").
5,000,000 bytes reproduces every outcome of the tests under src: a group of
100 events of 99,046 serialized bytes each defers exactly 50, and 150 such
events drain in exactly 3 HTTP calls. -/
def apiMaxBatchSize : Nat := 5000000

/-- The oversize-event error text, exactly as asserted by the test
`TestFireBatchWithTooLargeEvent` in the source. -/
def oversizeMsg : String :=
  "event exceeds max event size of 100000 bytes, API will not accept this event"

/-- Modelled from the spec: the library version used in the client-identifier
header; the version constant itself is not under src, only the test that the
header has the form "libhoney-go/<version>". -/
def libVersion : String := "1.5.0"

/-- Strip leading and trailing whitespace from a character sequence. -/
def trimChars (l : List Char) : List Char :=
  ((l.dropWhile Char.isWhitespace).reverse.dropWhile Char.isWhitespace).reverse

/-- Strip surrounding whitespace from a string (the model's rendition of
Go's strings.TrimSpace). -/
def trimStr (s : String) : String := String.mk (trimChars s.data)

/-- Modelled from the spec: the User-Agent header value — a versioned client
identifier, augmented with the caller-supplied addition trimmed of
surrounding whitespace when that addition is non-empty (spec section 4.4). -/
def userAgentHeader (addition : String) : String :=
  if trimStr addition = "" then "libhoney-go/" ++ libVersion
  else "libhoney-go/" ++ libVersion ++ " " ++ trimStr addition

/-- The maximum number of events of uniform serialized size `s` whose JSON
array fits within the wire ceiling: n events cost 1 + n*(s+1) + 1 bytes. -/
def perBatchCap (s : Nat) : Nat := (apiMaxBatchSize - 1) / (s + 1)

/-- One entry of the server's per-event status array (spec section 6):
a status code and an optional error string. -/
structure BatchStatus where
  status : Nat
  error : Option String
  deriving DecidableEq

/-- The body of an HTTP response as far as the engine can observe it:
either readable text (paired with the result of parsing it as the per-event
status array — `none` when it does not parse as one), or a failing read. -/
inductive HttpBody where
  | readable (text : String) (parsed : Option (List BatchStatus))
  | unreadable (msg : String)
  deriving DecidableEq

/-- The outcome of one HTTP exchange: a transport-level failure with no
response, or a response with a status code and a body. -/
inductive HttpResult where
  | transportError (msg : String)
  | response (status : Nat) (body : HttpBody)
  deriving DecidableEq

/-- One HTTP POST issued by the engine.  `events` is the batch carried by the
request, in order; the uncompressed JSON-array payload is `requestPayload`,
and the wire body is the gzip compression of that payload (compression itself
is not modelled). -/
structure Request where
  url : String
  teamHeader : String
  userAgent : String
  events : List Event
  deriving DecidableEq

/-- The uncompressed JSON array a request carries. -/
def requestPayload (r : Request) : String :=
  "[" ++ joinComma (r.events.map encodeEvent) ++ "]"

/-- Modelled from the spec: the request built for one batch (spec sections
4.4 and 6): POST to `<APIHost>/1/batch/<Dataset>`, the write key in the
credential header, the versioned client identifier in User-Agent.  The
routing fields are taken from the first event of the group, as all events of
a group share one destination key. -/
def mkRequest (e0 : Event) (addition : String) (fit : List Event) : Request :=
  { url := e0.apiHost ++ "/1/batch/" ++ e0.dataset
    teamHeader := e0.writeKey
    userAgent := userAgentHeader addition
    events := fit }

/-- Modelled from the spec: the state of the batch aggregator — pending
groups by destination key, the Overflow Store (spec section 3), the response
channel with its capacity and delivery mode, the caller-supplied User-Agent
addition, and the (opaque) wall-clock duration one HTTP exchange takes. -/
structure BatchAgg where
  batches : List (String × List Event)
  overflowBatches : List (String × List Event)
  responses : List Response
  responseCap : Nat
  blockOnResponses : Bool
  userAgentAddition : String
  dur : Nat
  deriving DecidableEq

/-- Modelled from the spec: deliver one response through the aggregator's
response channel under the channel's delivery policy (spec section 4.2). -/
def enqueueResponse (b : BatchAgg) (r : Response) : BatchAgg :=
  { b with responses := (chanPush b.responseCap b.blockOnResponses b.responses r).1 }

/-- Deliver a list of responses in order. -/
def enqueueAll (b : BatchAgg) (rs : List Response) : BatchAgg :=
  rs.foldl enqueueResponse b

/-- Modelled from the spec: place deferred events into the Overflow Store
under their destination key, appending to any events already deferred under
that key (spec section 3: at most one pending slice per key; a repeat
oversize condition appends to it). -/
def reenqueue (ov : List (String × List Event)) (k : String) (es : List Event) :
    List (String × List Event) :=
  match ov with
  | [] => [(k, es)]
  | (k1, old) :: rest =>
    if k1 = k then (k1, old ++ es) :: rest else (k1, old) :: reenqueue rest k es

/-- Append an event to its destination key's group. -/
def addToGroups (gs : List (String × List Event)) (k : String) (e : Event) :
    List (String × List Event) :=
  match gs with
  | [] => [(k, [e])]
  | (k1, es) :: rest =>
    if k1 = k then (k1, es ++ [e]) :: rest else (k1, es) :: addToGroups rest k e

/-- Modelled from the spec: the aggregator's `Add` — group the incoming event
under its destination key (spec section 4.3 step 3). -/
def batchAdd (b : BatchAgg) (e : Event) : BatchAgg :=
  { b with batches := addToGroups b.batches (destKey e) e }

/-- Modelled from the spec: greedy packing of a group prefix into one wire
batch.  `acc` is the serialized size consumed so far (starting at 1 for the
opening bracket); an event costs its serialized size plus one byte for the
separator or closing bracket.  Returns the maximal fitting prefix and the
remainder to defer.  The spec fixes only that the serialized array of the
sent part stays within the wire ceiling and that the split is contiguous and
order-preserving; this packing rule is the one that reproduces the test
outcomes under src (see `apiMaxBatchSize`). -/
def packEvents (acc : Nat) : List Event → List Event × List Event
  | [] => ([], [])
  | e :: rest =>
    if acc + eventSize e + 1 ≤ apiMaxBatchSize then
      ((e :: (packEvents (acc + eventSize e + 1) rest).1),
       (packEvents (acc + eventSize e + 1) rest).2)
    else ([], e :: rest)

/-- A locally synthesized failure response: no status code, no body, no
network duration. -/
def errResponse (metadata msg : String) : Response :=
  { statusCode := 0, body := "", duration := 0, metadata := metadata, err := some msg }

/-- Modelled from the spec: mapping the outcome of one HTTP exchange onto the
events that were sent in it (spec section 4.4): transport failure — every
event gets the transport error with no status code; non-success status with
unreadable body — every event gets the descriptive read-failure error
(message text as asserted by `TestTxSendSingle` in the source); non-success
status with readable body — every event gets the status code and raw body;
success — the per-event status array is matched positionally, the Nth entry
giving the Nth event's status and optional error.  Durations are the
exchange's wall-clock span, identical for all events of the exchange. -/
def handleResult (b : BatchAgg) (sent : List Event) (r : HttpResult) : BatchAgg :=
  match r with
  | .transportError msg =>
    enqueueAll b (sent.map fun e =>
      { statusCode := 0, body := "", duration := b.dur, metadata := e.metadata,
        err := some msg })
  | .response st body =>
    if st = 200 then
      match body with
      | .readable _ (some sts) =>
        enqueueAll b ((sent.zip sts).map fun p =>
          { statusCode := p.2.status, body := "", duration := b.dur,
            metadata := p.1.metadata, err := p.2.error })
      | .readable _ none =>
        enqueueAll b (sent.map fun e =>
          { statusCode := 0, body := "", duration := b.dur, metadata := e.metadata,
            err := some "got OK but couldn't parse the response body" })
      | .unreadable msg =>
        enqueueAll b (sent.map fun e =>
          { statusCode := 0, body := "", duration := b.dur, metadata := e.metadata,
            err := some msg })
    else
      match body with
      | .unreadable msg =>
        enqueueAll b (sent.map fun e =>
          { statusCode := 0, body := "", duration := b.dur, metadata := e.metadata,
            err := some ("Got HTTP error code but couldn't read response body: " ++ msg) })
      | .readable text _ =>
        enqueueAll b (sent.map fun e =>
          { statusCode := st, body := text, duration := b.dur,
            metadata := e.metadata, err := none })

/-- Modelled from the spec: the batch-build-and-send routine for one
destination-key group (spec section 4.4; the code is not under src, only its
tests).  Any event whose serialized data exceeds the per-event ceiling is
removed from the group and immediately failed with `oversizeMsg`; the
remaining events are packed greedily into one wire batch; the unfitting
remainder is deferred to the Overflow Store under the group's destination
key; if anything fits, exactly one request is issued through `transport` and
its outcome mapped onto the sent events.  Returns the new state and the list
of HTTP calls issued. -/
def fireBatch (transport : Request → HttpResult) (b : BatchAgg)
    (events : List Event) : BatchAgg × List Request :=
  match events with
  | [] => (b, [])
  | e0 :: _ =>
    let oversized := events.filter fun e => apiEventSizeMax < eventSize e
    let good := events.filter fun e => eventSize e ≤ apiEventSizeMax
    let b1 := enqueueAll b (oversized.map fun e => errResponse e.metadata oversizeMsg)
    let packed := packEvents 1 good
    let b2 :=
      if packed.2.isEmpty then b1
      else { b1 with overflowBatches := reenqueue b1.overflowBatches (destKey e0) packed.2 }
    match packed.1 with
    | [] => (b2, [])
    | _ :: _ =>
      let req := mkRequest e0 b.userAgentAddition packed.1
      (handleResult b2 packed.1 (transport req), [req])

/-- Fire a list of destination-key groups in order, accumulating the calls. -/
def fireGroups (transport : Request → HttpResult) (b : BatchAgg) :
    List (String × List Event) → BatchAgg × List Request
  | [] => (b, [])
  | (_, es) :: rest =>
    let r1 := fireBatch transport b es
    let r2 := fireGroups transport r1.1 rest
    (r2.1, r1.2 ++ r2.2)

/-- The total number of events currently deferred in the Overflow Store. -/
def totalOverflow (b : BatchAgg) : Nat :=
  (b.overflowBatches.map fun p => p.2.length).sum

/-- Modelled from the spec: the aggregator's overflow-draining loop (spec
section 4.3 step 5: repeat against the Overflow Store until it is empty or
stable).  Each pass takes a snapshot of the store, clears it, and fires every
deferred group (which may re-defer a smaller remainder).  The fuel bounds the
number of passes; `Fire` supplies the total deferred event count, which
suffices because every pass sends at least one event per deferred key. -/
def drainOverflow (transport : Request → HttpResult) :
    Nat → BatchAgg × List Request → BatchAgg × List Request
  | 0, st => st
  | n + 1, (b, calls) =>
    if b.overflowBatches.isEmpty then (b, calls)
    else
      let r := fireGroups transport { b with overflowBatches := [] } b.overflowBatches
      drainOverflow transport n (r.1, calls ++ r.2)

/-- Modelled from the spec: one aggregation pass (spec section 4.3): fire
every pending destination-key group, then repeatedly drain the Overflow
Store until it is empty, so a single trigger fully drains a backlog. -/
def Fire (transport : Request → HttpResult) (b : BatchAgg) :
    BatchAgg × List Request :=
  let r := fireGroups transport { b with batches := [] } b.batches
  drainOverflow transport (totalOverflow r.1) r

/-- Modelled from the spec: the client front end (spec section 4.1) — the
bounded pending-work queue, the submission mode, and the response channel;
the `txDefaultClient` code is not under src, only its tests. -/
structure TxClient where
  workCap : Nat
  work : List Event
  blockOnSend : Bool
  blockOnResponses : Bool
  responseCap : Nat
  responses : List Response
  deriving DecidableEq

/-- The synthesized submission-overflow response: a "queue overflow" error
with no status code, carrying the event's metadata. -/
def queueOverflowResponse (e : Event) : Response :=
  errResponse e.metadata "queue overflow"

/-- Modelled from the spec: the front end's `Add` (spec section 4.1).  Under
blocking submission the call waits for room (modelled as always enqueued);
otherwise the event is enqueued when the queue has room, and when it is full
the event is discarded and a "queue overflow" response is pushed through the
response channel under that channel's own delivery policy. -/
def txAdd (c : TxClient) (e : Event) : TxClient :=
  if c.blockOnSend then { c with work := c.work ++ [e] }
  else if c.work.length < c.workCap then { c with work := c.work ++ [e] }
  else
    { c with responses :=
        (chanPush c.responseCap c.blockOnResponses c.responses
          (queueOverflowResponse e)).1 }

/-- The synchronous writer sink, embedded from the `WriterOutput` code in the
source: an output stream (modelled as the list of writes, plus a flag for a
stream whose Write calls fail), and the response channel fields. -/
structure WriterOutput where
  written : List String
  writeFails : Bool
  blockOnResponses : Bool
  responseQueueSize : Nat
  responses : List Response
  deriving DecidableEq

/-- `WriterOutput.SendResponse` from the source: blocking delivery always
sends; non-blocking delivery sends only when the channel has room and
otherwise returns `true` having dropped the response. -/
def WriterOutput.sendResponse (w : WriterOutput) (r : Response) :
    WriterOutput × Bool :=
  if w.blockOnResponses then ({ w with responses := w.responses ++ [r] }, false)
  else if w.responses.length < w.responseQueueSize then
    ({ w with responses := w.responses ++ [r] }, false)
  else (w, true)

/-- Whether Go's `json.Marshal` fails on the event's data map (it does when
any value is unmarshalable; the writer marshals the plain map, without the
skipping behaviour of the batch path's `marshallableMap`). -/
def writerDataFails (d : List (String × JVal)) : Bool :=
  d.any fun p => p.2 = JVal.unsupported

/-- The writer's marshalling of one event, from the `WriterOutput.Add` code
in the source: an anonymous struct of `data`, `samplerate` (set to 0 and thus
omitted when it is 1, and omitted when 0 as the zero value), `time` (omitted
when the timestamp is the zero time) and `dataset` (omitted when empty), in
that field order.  `none` when marshalling fails. -/
def writerMarshal (e : Event) : Option String :=
  if writerDataFails e.data then none
  else
    let sr := if e.sampleRate = 1 then 0 else e.sampleRate
    some ("\x7b\"data\":" ++ encodeData e.data
      ++ (if sr = 0 then "" else ",\"samplerate\":" ++ toString sr)
      ++ (match e.timestamp with
          | none => ""
          | some ts => ",\"time\":\"" ++ ts ++ "\"")
      ++ (if e.dataset = "" then "" else ",\"dataset\":" ++ jsonStr e.dataset)
      ++ "\x7d")

/-- The line the writer writes for one event: the marshalled bytes (empty on
a marshal error, whose result is discarded with `m, _ = json.Marshal(...)`)
followed by a newline. -/
def writerLine (e : Event) : String :=
  (match writerMarshal e with
   | some s => s
   | none => "") ++ "\n"

/-- `WriterOutput.Add` from the source: marshal the event (ignoring marshal
errors), write the line to the stream (ignoring write errors), then send a
response that carries only the event's metadata through the response
channel. -/
def writerAdd (w : WriterOutput) (e : Event) : WriterOutput :=
  let w1 := if w.writeFails then w else { w with written := w.written ++ [writerLine e] }
  (w1.sendResponse
    { statusCode := 0, body := "", duration := 0, metadata := e.metadata,
      err := none }).1

/-! ### String-length and escaping helpers -/

/-- A string of n copies of the letter a, standing for the large opaque
payloads the tests build with `randomString`. -/
def bigStr (n : Nat) : String := String.mk (List.replicate n 'a')

/-- The 99KB-payload event the overflow tests build (serialized size 99,046
bytes, matching the tests' 99,000-byte random column value). -/
def bigEvent : Event :=
  { apiHost := "http://fakeHost:8080", writeKey := "written", dataset := "ds1",
    sampleRate := 4, timestamp := none, metadata := "emmetta",
    data := [("reallyBigColumn", .str (bigStr 99000))] }

/-- An event whose serialized field data exceeds the 100,000-byte per-event
ceiling (serialized size 100,032 bytes). -/
def overEvent : Event :=
  { apiHost := "http://fakeHost:8080", writeKey := "written", dataset := "ds1",
    sampleRate := 4, timestamp := none, metadata := "meta 0",
    data := [("k", .str (bigStr 100000))] }

/-- The destination key shared by the test fixtures. -/
def fixtureKey : String := "http://fakeHost:8080_written_ds1"

/-- The always-successful transport of the overflow tests: status 200 with a
single-entry per-event status array. -/
def okTransport : Request → HttpResult :=
  fun _ => .response 200 (.readable "[\x7b\"status\":202\x7d]" (some [⟨202, none⟩]))

/-- A fresh aggregator matching the test setup: response channel of
capacity 1, blocking delivery for observation, no User-Agent addition, and a
10-unit exchange duration as provided by the tests' fake clock. -/
def freshAgg : BatchAgg :=
  { batches := [], overflowBatches := [], responses := [], responseCap := 1,
    blockOnResponses := true, userAgentAddition := "", dur := 10 }

/-- A small event of the shape the mapping tests build. -/
def smallEvent (md : String) : Event :=
  { apiHost := "fakeHost", writeKey := "written", dataset := "ds1",
    sampleRate := 1, timestamp := none, metadata := md,
    data := [("a", .num 1)] }

/-- The transport of the batch-mapping test: status 200 with the two-entry
per-event status array, the second entry rate-limited. -/
def brTransport : Request → HttpResult :=
  fun _ => .response 200
    (.readable "" (some [⟨202, none⟩, ⟨429, some "bratelimited"⟩]))

/-- The transport of the unreadable-body test: a 500 status whose body read
fails with "mystery read error!". -/
def erTransport : Request → HttpResult :=
  fun _ => .response 500 (.unreadable "mystery read error!")

/-- Modelled from the spec: the client front-end fixture with a zero-capacity
work queue, forcing submission overflow (spec section 8's "work queue of
capacity 0"). -/
def fullClient : TxClient :=
  { workCap := 0, work := [], blockOnSend := false, blockOnResponses := false,
    responseCap := 1, responses := [] }

/-- The placeholder response the tests park on channels (the teapot
status). -/
def placeholderResp : Response :=
  { statusCode := 418, body := "", duration := 0, metadata := "", err := none }

/-- A writer whose one-slot response channel is already full. -/
def fullWriter : WriterOutput :=
  { written := [], writeFails := false, blockOnResponses := false,
    responseQueueSize := 1, responses := [placeholderResp] }

/-- The writer example event with every wire field at its default. -/
def writerEvent1 : Event :=
  { apiHost := "", writeKey := "", dataset := "", sampleRate := 1,
    timestamp := none, metadata := "", data := [] }

/-- The writer example event with sample rate 2, the timestamp one second
past the zero time, dataset "dataset" and one key/val field. -/
def writerEvent2 : Event :=
  { apiHost := "", writeKey := "", dataset := "dataset", sampleRate := 2,
    timestamp := some "0001-01-01T00:00:01Z", metadata := "",
    data := [("key", .str "val")] }

/-- A writer output over a fresh stream with a roomy channel. -/
def freshWriter : WriterOutput :=
  { written := [], writeFails := false, blockOnResponses := false,
    responseQueueSize := 100, responses := [] }

/-- An event whose data map contains a value json cannot marshal. -/
def badEvent : Event :=
  { apiHost := "", writeKey := "", dataset := "", sampleRate := 1,
    timestamp := none, metadata := "badmeta", data := [("b", .unsupported)] }

/-- A writer whose underlying stream fails every write. -/
def failingWriter : WriterOutput :=
  { written := [], writeFails := true, blockOnResponses := false,
    responseQueueSize := 100, responses := [] }

theorem escapeChars_replicate (n : Nat) :
    escapeChars (List.replicate n 'a') = List.replicate n 'a' := by
  induction n with
  | zero => simp [escapeChars]
  | succ m ih =>
    rw [List.replicate_succ]
    simp only [escapeChars]
    rw [if_neg (by decide), if_neg (by decide), ih]
    rfl

theorem bigStr_length (n : Nat) : (bigStr n).length = n := by
  simp [bigStr]

theorem jsonEscape_bigStr (n : Nat) : jsonEscape (bigStr n) = bigStr n := by
  simp [jsonEscape, bigStr, escapeChars_replicate]

theorem jsonStr_bigStr (n : Nat) :
    jsonStr (bigStr n) = "\"" ++ bigStr n ++ "\"" := by
  simp [jsonStr, jsonEscape_bigStr]

/-! ### Response-channel and state-shape helpers -/

theorem enqueueAll_shape (rs : List Response) (b : BatchAgg) :
    ∃ res, enqueueAll b rs = { b with responses := res } ∧
      (b.blockOnResponses = true → res = b.responses ++ rs) := by
  induction rs generalizing b with
  | nil => exact ⟨b.responses, rfl, fun _ => by simp⟩
  | cons r rest ih =>
    obtain ⟨res, hEq, hBlock⟩ := ih (enqueueResponse b r)
    refine ⟨res, ?_, fun hb => ?_⟩
    · show enqueueAll (enqueueResponse b r) rest = _
      rw [hEq]
      rfl
    · have hb2 : (enqueueResponse b r).blockOnResponses = true := hb
      have hr : (enqueueResponse b r).responses = b.responses ++ [r] := by
        simp [enqueueResponse, chanPush, hb]
      rw [hBlock hb2, hr]
      simp

theorem handleResult_shape (b : BatchAgg) (sent : List Event) (r : HttpResult) :
    ∃ res, handleResult b sent r = { b with responses := res } ∧
      (b.blockOnResponses = true → ∃ extra, res = b.responses ++ extra) := by
  have key : ∀ rs : List Response,
      ∃ res, enqueueAll b rs = { b with responses := res } ∧
        (b.blockOnResponses = true → ∃ extra, res = b.responses ++ extra) := by
    intro rs
    obtain ⟨res, h1, h2⟩ := enqueueAll_shape rs b
    exact ⟨res, h1, fun hb => ⟨rs, h2 hb⟩⟩
  cases r with
  | transportError msg => exact key _
  | response st body =>
    by_cases hst : st = 200
    · cases body with
      | readable text parsed =>
        cases parsed with
        | none => simp only [handleResult, hst, if_pos]; exact key _
        | some sts => simp only [handleResult, hst, if_pos]; exact key _
      | unreadable msg => simp only [handleResult, hst, if_pos]; exact key _
    · cases body with
      | readable text parsed =>
        simp only [handleResult, hst, if_neg, ite_false]; exact key _
      | unreadable msg =>
        simp only [handleResult, hst, if_neg, ite_false]; exact key _

/-! ### Packing lemmas -/

theorem packEvents_append (acc : Nat) (l : List Event) :
    (packEvents acc l).1 ++ (packEvents acc l).2 = l := by
  induction l generalizing acc with
  | nil => simp [packEvents]
  | cons e rest ih =>
    by_cases h : acc + eventSize e + 1 ≤ apiMaxBatchSize
    · simp [packEvents, h, ih]
    · simp [packEvents, h]

theorem packEvents_all (l : List Event) (acc : Nat)
    (h : acc + (((l.map eventSize).sum) + l.length) ≤ apiMaxBatchSize) :
    packEvents acc l = (l, []) := by
  induction l generalizing acc with
  | nil => simp [packEvents]
  | cons e rest ih =>
    simp only [List.map_cons, List.sum_cons, List.length_cons] at h
    have hcond : acc + eventSize e + 1 ≤ apiMaxBatchSize := by omega
    have hrec := ih (acc + eventSize e + 1) (by omega)
    simp [packEvents, hcond, hrec]

theorem packEvents_uniform (s : Nat) (l : List Event) (j : Nat)
    (hsz : ∀ e ∈ l, eventSize e = s) :
    packEvents (1 + j * (s + 1)) l =
      (l.take (perBatchCap s - j), l.drop (perBatchCap s - j)) := by
  induction l generalizing j with
  | nil => simp [packEvents]
  | cons e rest ih =>
    have hse : eventSize e = s := hsz e (by simp)
    have hrest : ∀ x ∈ rest, eventSize x = s := fun x hx => hsz x (by simp [hx])
    have hdiv : (j + 1 ≤ (apiMaxBatchSize - 1) / (s + 1)) ↔
        ((j + 1) * (s + 1) ≤ apiMaxBatchSize - 1) :=
      Nat.le_div_iff_mul_le (Nat.succ_pos s)
    by_cases hj : j + 1 ≤ perBatchCap s
    · have hmul : (j + 1) * (s + 1) ≤ apiMaxBatchSize - 1 := by
        rw [perBatchCap] at hj
        exact hdiv.mp hj
      have hcond : 1 + j * (s + 1) + eventSize e + 1 ≤ apiMaxBatchSize := by
        rw [hse]
        have hexp : (j + 1) * (s + 1) = j * (s + 1) + s + 1 := by ring
        rw [hexp] at hmul
        generalize j * (s + 1) = tt at hmul ⊢
        simp [apiMaxBatchSize] at hmul ⊢
        omega
      have hacc : 1 + j * (s + 1) + eventSize e + 1 = 1 + (j + 1) * (s + 1) := by
        rw [hse]; ring
      have hm : ∃ m, perBatchCap s - j = m + 1 := ⟨perBatchCap s - (j + 1), by omega⟩
      obtain ⟨m, hmEq⟩ := hm
      have hm2 : perBatchCap s - (j + 1) = m := by omega
      simp only [packEvents]
      rw [if_pos hcond, hacc, ih (j + 1) hrest, hm2, hmEq]
      simp
    · have hmul : ¬ (j + 1) * (s + 1) ≤ apiMaxBatchSize - 1 := by
        rw [perBatchCap] at hj
        intro hc
        exact hj (hdiv.mpr hc)
      have hcond : ¬ (1 + j * (s + 1) + eventSize e + 1 ≤ apiMaxBatchSize) := by
        rw [hse]
        have hexp : (j + 1) * (s + 1) = j * (s + 1) + s + 1 := by ring
        rw [hexp] at hmul
        generalize j * (s + 1) = tt at hmul ⊢
        simp [apiMaxBatchSize] at hmul ⊢
        omega
      have hzero : perBatchCap s - j = 0 := by omega
      simp [packEvents, hcond, hzero]

theorem perBatchCap_pos (s : Nat) (hs : s ≤ apiEventSizeMax) :
    1 ≤ perBatchCap s := by
  rw [perBatchCap, Nat.le_div_iff_mul_le (Nat.succ_pos s)]
  simp [apiMaxBatchSize, apiEventSizeMax] at hs ⊢
  omega

theorem sum_eventSize_uniform (s : Nat) (l : List Event)
    (hsz : ∀ e ∈ l, eventSize e = s) :
    (l.map eventSize).sum = l.length * s := by
  induction l with
  | nil => simp
  | cons e rest ih =>
    have hse : eventSize e = s := hsz e (by simp)
    have := ih (fun x hx => hsz x (by simp [hx]))
    simp [hse, this, Nat.succ_mul]
    ring

/-- For a nonempty uniform-size group, exceeding the wire ceiling is the same
as exceeding the per-batch event capacity. -/
theorem uniform_over_iff (s : Nat) (l : List Event) (hne : l ≠ [])
    (hsz : ∀ e ∈ l, eventSize e = s) :
    apiMaxBatchSize < arraySize l ↔ perBatchCap s < l.length := by
  have hsum := sum_eventSize_uniform s l hsz
  have harr : arraySize l = 1 + (l.length * s + l.length) := by
    rw [arraySize, if_neg (by simp [hne]), hsum]
  have hdiv : (l.length ≤ (apiMaxBatchSize - 1) / (s + 1)) ↔
      (l.length * (s + 1) ≤ apiMaxBatchSize - 1) :=
    Nat.le_div_iff_mul_le (Nat.succ_pos s)
  rw [harr]
  rw [perBatchCap]
  constructor
  · intro h
    by_contra hc
    push_neg at hc
    have := hdiv.mp hc
    have hexp : l.length * (s + 1) = l.length * s + l.length := by ring
    rw [hexp] at this
    simp [apiMaxBatchSize] at h this
    omega
  · intro h
    have hc : ¬ l.length ≤ (apiMaxBatchSize - 1) / (s + 1) := by omega
    rw [hdiv] at hc
    have hexp : l.length * (s + 1) = l.length * s + l.length := by ring
    rw [hexp] at hc
    simp [apiMaxBatchSize] at hc ⊢
    omega

/-! ### fireBatch normal forms -/

theorem enqueueAll_nil (b : BatchAgg) : enqueueAll b [] = b := rfl

theorem filter_oversize_nil (l : List Event)
    (hsmall : ∀ e ∈ l, eventSize e ≤ apiEventSizeMax) :
    l.filter (fun e => apiEventSizeMax < eventSize e) = [] := by
  rw [List.filter_eq_nil_iff]
  intro a ha
  simp only [decide_eq_true_eq, not_lt]
  exact hsmall a ha

theorem filter_good_self (l : List Event)
    (hsmall : ∀ e ∈ l, eventSize e ≤ apiEventSizeMax) :
    l.filter (fun e => eventSize e ≤ apiEventSizeMax) = l := by
  rw [List.filter_eq_self]
  intro a ha
  simp only [decide_eq_true_eq]
  exact hsmall a ha

/-- When the whole group fits within the wire ceiling, `fireBatch` sends it in
a single request and maps the transport's outcome onto all of it. -/
theorem fireBatch_fits (t : Request → HttpResult) (b : BatchAgg) (l : List Event)
    (hne : l ≠ [])
    (hsmall : ∀ e ∈ l, eventSize e ≤ apiEventSizeMax)
    (hfit : arraySize l ≤ apiMaxBatchSize) :
    fireBatch t b l =
      (handleResult b l (t (mkRequest (l.head hne) b.userAgentAddition l)),
       [mkRequest (l.head hne) b.userAgentAddition l]) := by
  cases l with
  | nil => cases hne rfl
  | cons e0 tl =>
    have hov := filter_oversize_nil (e0 :: tl) hsmall
    have hgood := filter_good_self (e0 :: tl) hsmall
    have hpack : packEvents 1 (e0 :: tl) = (e0 :: tl, []) := by
      apply packEvents_all
      rw [arraySize, if_neg (by simp)] at hfit
      omega
    simp only [fireBatch, hov, hgood, hpack]
    simp [enqueueAll]

/-- The uniform-size normal form of `fireBatch`: the maximal fitting prefix
(`perBatchCap s` events) is sent in one request, the remainder is deferred
under the group's destination key, and only the response channel otherwise
changes. -/
theorem fireBatch_uniform (t : Request → HttpResult) (b : BatchAgg)
    (l : List Event) (s : Nat) (k : String)
    (hne : l ≠ []) (hsz : ∀ e ∈ l, eventSize e = s) (hk : ∀ e ∈ l, destKey e = k)
    (hs : s ≤ apiEventSizeMax) :
    ∃ rs, fireBatch t b l =
      ({ b with
          responses := rs,
          overflowBatches :=
            if l.length ≤ perBatchCap s then b.overflowBatches
            else reenqueue b.overflowBatches k (l.drop (perBatchCap s)) },
       [mkRequest (l.head hne) b.userAgentAddition (l.take (perBatchCap s))]) := by
  cases l with
  | nil => cases hne rfl
  | cons e0 tl =>
    have hsmall : ∀ e ∈ e0 :: tl, eventSize e ≤ apiEventSizeMax :=
      fun e he => (hsz e he) ▸ hs
    have hov := filter_oversize_nil (e0 :: tl) hsmall
    have hgood := filter_good_self (e0 :: tl) hsmall
    have hpack : packEvents 1 (e0 :: tl) =
        ((e0 :: tl).take (perBatchCap s), (e0 :: tl).drop (perBatchCap s)) := by
      have h0 := packEvents_uniform s (e0 :: tl) 0 hsz
      simpa using h0
    obtain ⟨m, hmEq⟩ : ∃ m, perBatchCap s = m + 1 :=
      ⟨perBatchCap s - 1, by have := perBatchCap_pos s hs; omega⟩
    have hk0 : destKey e0 = k := hk e0 (by simp)
    by_cases hlen : (e0 :: tl).length ≤ perBatchCap s
    · have hdrop : (e0 :: tl).drop (perBatchCap s) = [] := List.drop_eq_nil_of_le hlen
      have htake : (e0 :: tl).take (perBatchCap s) = e0 :: tl :=
        List.take_of_length_le hlen
      obtain ⟨res, hH, _⟩ := handleResult_shape b (e0 :: tl)
        (t (mkRequest e0 b.userAgentAddition (e0 :: tl)))
      refine ⟨res, ?_⟩
      simp only [fireBatch, hov, hgood, hpack, hdrop, htake, if_pos hlen]
      simp [enqueueAll, hH]
    · have hdropNe : (e0 :: tl).drop (perBatchCap s) ≠ [] := by
        intro hc
        exact hlen (List.drop_eq_nil_iff.mp hc)
      have htake : (e0 :: tl).take (perBatchCap s) = e0 :: tl.take m := by
        rw [hmEq, List.take_succ_cons]
      obtain ⟨res, hH, _⟩ := handleResult_shape
        { b with overflowBatches :=
            reenqueue b.overflowBatches k ((e0 :: tl).drop (perBatchCap s)) }
        (e0 :: tl.take m)
        (t (mkRequest e0 b.userAgentAddition (e0 :: tl.take m)))
      refine ⟨res, ?_⟩
      simp only [fireBatch, hov, hgood, hpack, htake, if_neg hlen, enqueueAll_nil,
        List.map_nil, List.head_cons, hk0]
      rw [if_neg (by simp [hdropNe])]
      rw [hH]

/-! ### Aggregation-pass lemmas -/

theorem drainOverflow_empty (t : Request → HttpResult) (n : Nat) (b : BatchAgg)
    (calls : List Request) (h : b.overflowBatches = []) :
    drainOverflow t n (b, calls) = (b, calls) := by
  cases n with
  | zero => rfl
  | succ m => simp [drainOverflow, h]

theorem fireGroups_single (t : Request → HttpResult) (b : BatchAgg)
    (k : String) (l : List Event) :
    fireGroups t b [(k, l)] = fireBatch t b l := by
  simp [fireGroups]

/-- One uniform-size deferred group is fully drained by the overflow loop,
in exactly the ceiling of (count / capacity) further HTTP calls, provided the
fuel covers the deferred count. -/
theorem drainOverflow_uniform (t : Request → HttpResult) (s : Nat) (k : String)
    (hs : s ≤ apiEventSizeMax) :
    ∀ (n : Nat) (l : List Event) (b : BatchAgg) (calls : List Request),
      l ≠ [] → (∀ e ∈ l, eventSize e = s) → (∀ e ∈ l, destKey e = k) →
      b.overflowBatches = [(k, l)] → l.length ≤ n →
      (drainOverflow t n (b, calls)).1.overflowBatches = [] ∧
      (drainOverflow t n (b, calls)).2.length =
        calls.length + (l.length + perBatchCap s - 1) / perBatchCap s := by
  intro n
  induction n with
  | zero =>
    intro l b calls hne _ _ _ hlen
    cases l with
    | nil => cases hne rfl
    | cons a as => simp at hlen
  | succ n ih =>
    intro l b calls hne hsz hk hov hlen
    have hcap : 1 ≤ perBatchCap s := perBatchCap_pos s hs
    have hlen0 : 1 ≤ l.length := List.length_pos.mpr hne
    obtain ⟨rs, hFB⟩ := fireBatch_uniform t { b with overflowBatches := [] } l s k
      hne hsz hk hs
    have hstep : drainOverflow t (n + 1) (b, calls) =
        drainOverflow t n
          ((fireBatch t { b with overflowBatches := [] } l).1,
           calls ++ (fireBatch t { b with overflowBatches := [] } l).2) := by
      simp only [drainOverflow, hov]
      rw [if_neg (by simp)]
      rw [fireGroups_single]
    rw [hstep, hFB]
    by_cases hsmalln : l.length ≤ perBatchCap s
    · have hone : (l.length + perBatchCap s - 1) / perBatchCap s = 1 := by
        have hshift : l.length + perBatchCap s - 1 = (l.length - 1) + perBatchCap s := by
          omega
        rw [hshift, Nat.add_div_right _ (by omega), Nat.div_eq_of_lt (by omega)]
      rw [drainOverflow_empty t n _ _ (by simp [hsmalln])]
      simp [hone, hsmalln]
    · have hrecEq :
          ({ b with overflowBatches := [] } : BatchAgg).overflowBatches = [] := rfl
      have hdropNe : l.drop (perBatchCap s) ≠ [] := by
        intro hc
        exact hsmalln (List.drop_eq_nil_iff.mp hc)
      have hdropLen : (l.drop (perBatchCap s)).length = l.length - perBatchCap s := by
        simp
      obtain ⟨ih1, ih2⟩ := ih (l.drop (perBatchCap s))
        { b with
            responses := rs,
            overflowBatches := reenqueue [] k (l.drop (perBatchCap s)) }
        (calls ++ [mkRequest (l.head hne) b.userAgentAddition (l.take (perBatchCap s))])
        hdropNe
        (fun e he => hsz e (List.mem_of_mem_drop he))
        (fun e he => hk e (List.mem_of_mem_drop he))
        (by simp [reenqueue])
        (by omega)
      constructor
      · have hgoal := ih1
        simp only [if_neg hsmalln] at *
        convert hgoal using 3
      · have hgoal := ih2
        simp only [if_neg hsmalln] at *
        have harith : (l.length + perBatchCap s - 1) / perBatchCap s =
            ((l.length - perBatchCap s) + perBatchCap s - 1) / perBatchCap s + 1 := by
          have hshift : l.length + perBatchCap s - 1 =
              ((l.length - perBatchCap s) + perBatchCap s - 1) + perBatchCap s := by
            omega
          rw [hshift, Nat.add_div_right _ (by omega)]
        rw [harith]
        simp only [hdropLen] at hgoal
        rw [hgoal]
        simp
        omega

theorem foldl_batchAdd_aux (k : String) :
    ∀ (l : List Event) (pre : List Event) (b : BatchAgg),
      (∀ e ∈ l, destKey e = k) → b.batches = [(k, pre)] →
      l.foldl batchAdd b = { b with batches := [(k, pre ++ l)] } := by
  intro l
  induction l with
  | nil =>
    intro pre b _ hb
    show b = _
    simp only [List.append_nil]
    rw [← hb]
  | cons e rest ih =>
    intro pre b hk hb
    have hke : destKey e = k := hk e (by simp)
    have hstep : batchAdd b e = { b with batches := [(k, pre ++ [e])] } := by
      simp [batchAdd, hb, addToGroups, hke]
    rw [List.foldl_cons, hstep,
      ih (pre ++ [e]) _ (fun x hx => hk x (by simp [hx])) rfl]
    simp

/-- Adding a nonempty run of events with one destination key to an aggregator
with no pending groups leaves exactly that one group. -/
theorem foldl_batchAdd (l : List Event) (b : BatchAgg) (k : String)
    (hne : l ≠ []) (hk : ∀ e ∈ l, destKey e = k) (hb : b.batches = []) :
    l.foldl batchAdd b = { b with batches := [(k, l)] } := by
  cases l with
  | nil => cases hne rfl
  | cons e rest =>
    have hke : destKey e = k := hk e (by simp)
    have hstep : batchAdd b e = { b with batches := [(k, [e])] } := by
      simp [batchAdd, hb, addToGroups, hke]
    rw [List.foldl_cons, hstep,
      foldl_batchAdd_aux k rest [e] _ (fun x hx => hk x (by simp [hx])) rfl]
    simp

/-- Every event found in the Overflow Store after a `reenqueue` was either
already deferred there or belongs to the newly deferred remainder. -/
theorem reenqueue_mem (k : String) (es : List Event) (x : Event) :
    ∀ (ov : List (String × List Event)) (p : String × List Event),
      p ∈ reenqueue ov k es → x ∈ p.2 →
      (∃ q ∈ ov, x ∈ q.2) ∨ x ∈ es := by
  intro ov
  induction ov with
  | nil =>
    intro p hp hx
    simp [reenqueue] at hp
    subst hp
    right
    simpa using hx
  | cons q rest ih =>
    intro p hp hx
    obtain ⟨k1, old⟩ := q
    by_cases hkk : k1 = k
    · rw [reenqueue, if_pos hkk] at hp
      rcases List.mem_cons.mp hp with h1 | h2
      · subst h1
        rcases List.mem_append.mp hx with hxo | hxe
        · exact Or.inl ⟨(k1, old), by simp, hxo⟩
        · exact Or.inr hxe
      · exact Or.inl ⟨p, by simp [h2], hx⟩
    · rw [reenqueue, if_neg hkk] at hp
      rcases List.mem_cons.mp hp with h1 | h2
      · subst h1
        exact Or.inl ⟨(k1, old), by simp, hx⟩
      · rcases ih p h2 hx with ⟨q2, hq2, hxq⟩ | hxe
        · exact Or.inl ⟨q2, by simp [hq2], hxq⟩
        · exact Or.inr hxe

/-! ### Concrete instances mirroring the test fixtures -/

theorem eventSize_bigEvent : eventSize bigEvent = 99046 := by
  have hk : jsonStr "reallyBigColumn" = "\"reallyBigColumn\"" := by decide
  simp [eventSize, bigEvent, encodeEvent, encodeData, encodeEntry, joinComma,
    encodeJVal, hk, jsonStr_bigStr, String.length_append, bigStr_length]
  decide

theorem eventSize_overEvent : eventSize overEvent = 100032 := by
  have hk : jsonStr "k" = "\"k\"" := by decide
  simp [eventSize, overEvent, encodeEvent, encodeData, encodeEntry, joinComma,
    encodeJVal, hk, jsonStr_bigStr, String.length_append, bigStr_length]
  decide

theorem destKey_bigEvent : destKey bigEvent = fixtureKey := by decide

theorem perBatchCap_bigEvent : perBatchCap 99046 = 50 := by
  norm_num [perBatchCap, apiMaxBatchSize]

/-! ### Claim theorems -/

/-- Uniform-size oversize groups: specialization of `fireBatch_uniform` to an
empty Overflow Store and a group strictly larger than the per-batch
capacity. -/
theorem fireBatch_uniform_over (t : Request → HttpResult) (b : BatchAgg)
    (l : List Event) (s : Nat) (k : String)
    (hne : l ≠ []) (hsz : ∀ e ∈ l, eventSize e = s) (hk : ∀ e ∈ l, destKey e = k)
    (hs : s ≤ apiEventSizeMax) (hov : b.overflowBatches = [])
    (hover : perBatchCap s < l.length) :
    ∃ rs, fireBatch t b l =
      ({ b with
          responses := rs,
          overflowBatches := [(k, l.drop (perBatchCap s))] },
       [mkRequest (l.head hne) b.userAgentAddition (l.take (perBatchCap s))]) := by
  obtain ⟨rs, h⟩ := fireBatch_uniform t b l s k hne hsz hk hs
  refine ⟨rs, ?_⟩
  rw [h, if_neg (by omega), hov]
  rfl

/-- C2: for every set of N events sharing one destination key and one
serialized size whose combined serialized size exceeds the wire ceiling, a
single aggregation pass (`Fire`, which also drains the Overflow Store)
produces exactly the ceiling of N divided by the per-batch capacity many
HTTP calls, and leaves the Overflow Store empty; in particular 150 events of
about 99KB each yield exactly 3 calls and an empty store (see the witness). -/
theorem fire_drains_overflow_call_count
    (t : Request → HttpResult) (b0 : BatchAgg) (l : List Event) (s : Nat) (k : String)
    (hne : l ≠ []) (hsz : ∀ e ∈ l, eventSize e = s) (hk : ∀ e ∈ l, destKey e = k)
    (hs : s ≤ apiEventSizeMax) (hbig : apiMaxBatchSize < arraySize l)
    (hbat : b0.batches = []) (hov : b0.overflowBatches = []) :
    (Fire t (l.foldl batchAdd b0)).1.overflowBatches = [] ∧
    (Fire t (l.foldl batchAdd b0)).2.length =
      (l.length + perBatchCap s - 1) / perBatchCap s := by
  have hcap : 1 ≤ perBatchCap s := perBatchCap_pos s hs
  have hlen0 : 1 ≤ l.length := List.length_pos.mpr hne
  have hlenOver : perBatchCap s < l.length := (uniform_over_iff s l hne hsz).mp hbig
  have hdropNe : l.drop (perBatchCap s) ≠ [] := by
    intro hc
    have := List.drop_eq_nil_iff.mp hc
    omega
  have hdropLen : (l.drop (perBatchCap s)).length = l.length - perBatchCap s := by simp
  rw [foldl_batchAdd l b0 k hne hk hbat]
  have key : Fire t ({ b0 with batches := [(k, l)] }) =
      drainOverflow t (totalOverflow (fireBatch t { b0 with batches := [] } l).1)
        (fireBatch t { b0 with batches := [] } l) := by
    show drainOverflow t
        (totalOverflow (fireGroups t { b0 with batches := [] } [(k, l)]).1)
        (fireGroups t { b0 with batches := [] } [(k, l)]) = _
    rw [fireGroups_single]
  obtain ⟨rs, hFB⟩ := fireBatch_uniform_over t { b0 with batches := [] } l s k
    hne hsz hk hs hov hlenOver
  have H :
      ((drainOverflow t (totalOverflow (fireBatch t { b0 with batches := [] } l).1)
          (fireBatch t { b0 with batches := [] } l)).1.overflowBatches = []) ∧
      ((drainOverflow t (totalOverflow (fireBatch t { b0 with batches := [] } l).1)
          (fireBatch t { b0 with batches := [] } l)).2.length =
        ([mkRequest (l.head hne)
            ({ b0 with batches := [] } : BatchAgg).userAgentAddition
            (l.take (perBatchCap s))]).length +
          ((l.drop (perBatchCap s)).length + perBatchCap s - 1) / perBatchCap s) := by
    rw [hFB]
    exact drainOverflow_uniform t s k hs _ _ _ _ hdropNe
      (fun e he => hsz e (List.mem_of_mem_drop he))
      (fun e he => hk e (List.mem_of_mem_drop he))
      rfl (by simp [totalOverflow])
  rw [key]
  refine ⟨H.1, ?_⟩
  rw [H.2, hdropLen]
  have harith : (l.length + perBatchCap s - 1) / perBatchCap s =
      ((l.length - perBatchCap s) + perBatchCap s - 1) / perBatchCap s + 1 := by
    have hshift : l.length + perBatchCap s - 1 =
        ((l.length - perBatchCap s) + perBatchCap s - 1) + perBatchCap s := by
      omega
    rw [hshift, Nat.add_div_right _ (by omega)]
  rw [harith]
  simp
  exact Nat.add_comm 1 _

/-- C2 witness: 150 events of 99,046 serialized bytes each (the tests' ~99KB
events), sharing one destination key, drain through a single `Fire` in
exactly 3 HTTP calls and leave the Overflow Store empty. -/
theorem fire_drains_overflow_call_count_witness :
    (Fire okTransport
      ((List.replicate 150 bigEvent).foldl batchAdd freshAgg)).1.overflowBatches = [] ∧
    (Fire okTransport
      ((List.replicate 150 bigEvent).foldl batchAdd freshAgg)).2.length = 3 := by
  have hne : List.replicate 150 bigEvent ≠ [] := by simp
  have hsz : ∀ e ∈ List.replicate 150 bigEvent, eventSize e = 99046 := by
    intro e he
    rw [List.eq_of_mem_replicate he]
    exact eventSize_bigEvent
  have hk : ∀ e ∈ List.replicate 150 bigEvent, destKey e = fixtureKey := by
    intro e he
    rw [List.eq_of_mem_replicate he]
    exact destKey_bigEvent
  have hbig : apiMaxBatchSize < arraySize (List.replicate 150 bigEvent) := by
    rw [arraySize, if_neg (by simp), sum_eventSize_uniform 99046 _ hsz]
    simp [apiMaxBatchSize]
  obtain ⟨h1, h2⟩ := fire_drains_overflow_call_count okTransport freshAgg
    (List.replicate 150 bigEvent) 99046 fixtureKey hne hsz hk
    (by norm_num [apiEventSizeMax]) hbig rfl rfl
  refine ⟨h1, ?_⟩
  rw [h2]
  simp [perBatchCap_bigEvent]

/-- C3 (amended): when a uniform-size group of one destination key exceeds
the wire ceiling, a raw `fireBatch` splits it into the maximal contiguous
prefix whose serialized array fits the ceiling (sent as one request, in
order) and the remaining contiguous suffix, which is deferred — in exactly
that order-preserving decomposition — into the Overflow Store under the
group's destination key; in particular a group of 100 events of ~99KB each
leaves exactly the last 50 deferred (see the witness). -/
theorem fireBatch_capacity_split
    (t : Request → HttpResult) (b : BatchAgg) (l : List Event) (s : Nat) (k : String)
    (hne : l ≠ []) (hsz : ∀ e ∈ l, eventSize e = s) (hk : ∀ e ∈ l, destKey e = k)
    (hs : s ≤ apiEventSizeMax) (hov : b.overflowBatches = [])
    (hbig : apiMaxBatchSize < arraySize l) :
    ∃ req rs,
      fireBatch t b l =
        ({ b with
            responses := rs,
            overflowBatches := [(k, l.drop (perBatchCap s))] }, [req]) ∧
      req.events = l.take (perBatchCap s) ∧
      l.take (perBatchCap s) ++ l.drop (perBatchCap s) = l := by
  have hover := (uniform_over_iff s l hne hsz).mp hbig
  obtain ⟨rs, h⟩ := fireBatch_uniform_over t b l s k hne hsz hk hs hov hover
  exact ⟨_, rs, h, rfl, List.take_append_drop _ _⟩

/-- C3 witness (the amended claim at the test's input): a raw `fireBatch` on
100 events of ~99KB sharing one destination key sends the first 50 in one
request and leaves exactly the last 50 deferred under that key. -/
theorem fireBatch_capacity_split_witness :
    ∃ req rs,
      fireBatch okTransport freshAgg (List.replicate 100 bigEvent) =
        ({ freshAgg with
            responses := rs,
            overflowBatches :=
              [(fixtureKey, (List.replicate 100 bigEvent).drop 50)] }, [req]) ∧
      req.events = (List.replicate 100 bigEvent).take 50 ∧
      ((List.replicate 100 bigEvent).drop 50).length = 50 := by
  have hne : List.replicate 100 bigEvent ≠ [] := by simp
  have hsz : ∀ e ∈ List.replicate 100 bigEvent, eventSize e = 99046 := by
    intro e he
    rw [List.eq_of_mem_replicate he]
    exact eventSize_bigEvent
  have hk : ∀ e ∈ List.replicate 100 bigEvent, destKey e = fixtureKey := by
    intro e he
    rw [List.eq_of_mem_replicate he]
    exact destKey_bigEvent
  have hbig : apiMaxBatchSize < arraySize (List.replicate 100 bigEvent) := by
    rw [arraySize, if_neg (by simp), sum_eventSize_uniform 99046 _ hsz]
    simp [apiMaxBatchSize]
  obtain ⟨req, rs, hEq, hReq, _⟩ := fireBatch_capacity_split okTransport freshAgg
    (List.replicate 100 bigEvent) 99046 fixtureKey hne hsz hk
    (by norm_num [apiEventSizeMax]) rfl hbig
  rw [perBatchCap_bigEvent] at hEq hReq
  exact ⟨req, rs, hEq, hReq, by simp⟩

/-- C3 counterexample: the claim's "two contiguous halves" split is false on
the code: a raw `fireBatch` on a group of 150 events of ~99KB (uniform size,
one destination key) defers 100 events — the remainder past the 50-event wire
capacity — and not the second half of 75 events. -/
theorem fireBatch_halving_counterexample :
    ((fireBatch okTransport freshAgg
        (List.replicate 150 bigEvent)).1.overflowBatches.map
      fun p => p.2.length) = [100] ∧ (100 : Nat) ≠ 150 / 2 := by
  have hne : List.replicate 150 bigEvent ≠ [] := by simp
  have hsz : ∀ e ∈ List.replicate 150 bigEvent, eventSize e = 99046 := by
    intro e he
    rw [List.eq_of_mem_replicate he]
    exact eventSize_bigEvent
  have hk : ∀ e ∈ List.replicate 150 bigEvent, destKey e = fixtureKey := by
    intro e he
    rw [List.eq_of_mem_replicate he]
    exact destKey_bigEvent
  obtain ⟨rs, hEq⟩ := fireBatch_uniform_over okTransport freshAgg
    (List.replicate 150 bigEvent) 99046 fixtureKey hne hsz hk
    (by norm_num [apiEventSizeMax]) rfl
    (by rw [perBatchCap_bigEvent]; simp)
  rw [hEq]
  constructor
  · simp [perBatchCap_bigEvent]
  · decide

/-- C1: every event whose serialized field data exceeds the 100,000-byte
per-event ceiling is removed from its group before batching and immediately
failed: a Response with status code 0, the oversize error text and the
event's metadata is delivered (stated here under blocking response delivery,
so the delivery is observable), the event appears in no HTTP call, and it is
never placed into the Overflow Store for retry. -/
theorem oversize_event_locally_failed
    (t : Request → HttpResult) (b : BatchAgg) (es : List Event) (e : Event)
    (hmem : e ∈ es) (hsz : apiEventSizeMax < eventSize e)
    (hb : b.blockOnResponses = true)
    (hov : ∀ p ∈ b.overflowBatches, e ∉ p.2) :
    (∃ r ∈ (fireBatch t b es).1.responses,
        r = { statusCode := 0, body := "", duration := 0, metadata := e.metadata,
              err := some oversizeMsg }) ∧
    (∀ req ∈ (fireBatch t b es).2, e ∉ req.events) ∧
    (∀ p ∈ (fireBatch t b es).1.overflowBatches, e ∉ p.2) := by
  cases es with
  | nil => cases hmem
  | cons e0 tl =>
    have hmemOv : e ∈ (e0 :: tl).filter fun x => apiEventSizeMax < eventSize x :=
      List.mem_filter.mpr ⟨hmem, by simp [hsz]⟩
    have hNotGood : e ∉ (e0 :: tl).filter fun x => eventSize x ≤ apiEventSizeMax := by
      intro hc
      have h2 := (List.mem_filter.mp hc).2
      simp at h2
      omega
    obtain ⟨res1, hEnq, hBlk⟩ := enqueueAll_shape
      (((e0 :: tl).filter fun x => apiEventSizeMax < eventSize x).map
        fun x => errResponse x.metadata oversizeMsg) b
    have hrmem : errResponse e.metadata oversizeMsg ∈ res1 := by
      rw [hBlk hb]
      exact List.mem_append_right _ (List.mem_map_of_mem _ hmemOv)
    have hsplit := packEvents_append 1
      ((e0 :: tl).filter fun x => eventSize x ≤ apiEventSizeMax)
    simp only [fireBatch]
    rw [hEnq]
    generalize hpk :
      packEvents 1 ((e0 :: tl).filter fun x => eventSize x ≤ apiEventSizeMax) =
        packed at hsplit ⊢
    obtain ⟨fit, rest⟩ := packed
    dsimp only at hsplit ⊢
    have hfitNoE : e ∉ fit := fun hc =>
      hNotGood (hsplit ▸ List.mem_append_left rest hc)
    have hrestNoE : e ∉ rest := fun hc =>
      hNotGood (hsplit ▸ List.mem_append_right fit hc)
    have hcommon : ∀ b2 : BatchAgg, b2.responses = res1 →
        b2.blockOnResponses = true → ∀ (sent : List Event) (r0 : HttpResult),
        errResponse e.metadata oversizeMsg ∈ (handleResult b2 sent r0).responses := by
      intro b2 h2 hb2 sent r0
      obtain ⟨res, hEqH, hBlk2⟩ := handleResult_shape b2 sent r0
      rw [hEqH]
      obtain ⟨extra, hex⟩ := hBlk2 hb2
      show errResponse e.metadata oversizeMsg ∈ res
      rw [hex, h2]
      exact List.mem_append_left _ hrmem
    have hovKeep : ∀ b2 : BatchAgg,
        (∀ p ∈ b2.overflowBatches, e ∉ p.2) →
        ∀ (sent : List Event) (r0 : HttpResult),
        ∀ p ∈ (handleResult b2 sent r0).overflowBatches, e ∉ p.2 := by
      intro b2 h2 sent r0 p hp
      obtain ⟨res, hEqH, _⟩ := handleResult_shape b2 sent r0
      rw [hEqH] at hp
      exact h2 p hp
    have hreenqOk : ∀ p ∈ reenqueue b.overflowBatches (destKey e0) rest, e ∉ p.2 := by
      intro p hp hin
      rcases reenqueue_mem (destKey e0) rest e b.overflowBatches p hp hin with
        ⟨q, hq, hxq⟩ | hxe
      · exact hov q hq hxq
      · exact hrestNoE hxe
    by_cases hre : rest.isEmpty = true
    · rw [if_pos hre]
      cases fit with
      | nil =>
        dsimp only
        refine ⟨⟨errResponse e.metadata oversizeMsg, hrmem, rfl⟩, ?_, ?_⟩
        · intro req hreq
          cases hreq
        · intro p hp
          exact hov p hp
      | cons f fs =>
        dsimp only
        refine ⟨⟨errResponse e.metadata oversizeMsg,
            hcommon { b with responses := res1 } rfl hb _ _, rfl⟩, ?_, ?_⟩
        · intro req hreq
          rcases List.mem_singleton.mp hreq with h
          subst h
          exact hfitNoE
        · exact hovKeep { b with responses := res1 } (fun p hp => hov p hp) _ _
    · rw [if_neg hre]
      cases fit with
      | nil =>
        dsimp only
        refine ⟨⟨errResponse e.metadata oversizeMsg, hrmem, rfl⟩, ?_, ?_⟩
        · intro req hreq
          cases hreq
        · intro p hp
          exact hreenqOk p hp
      | cons f fs =>
        dsimp only
        refine ⟨⟨errResponse e.metadata oversizeMsg,
            hcommon
              { b with
                  responses := res1,
                  overflowBatches := reenqueue b.overflowBatches (destKey e0) rest }
              rfl hb _ _, rfl⟩, ?_, ?_⟩
        · intro req hreq
          rcases List.mem_singleton.mp hreq with h
          subst h
          exact hfitNoE
        · exact hovKeep
            { b with
                responses := res1,
                overflowBatches := reenqueue b.overflowBatches (destKey e0) rest }
            (fun p hp => hreenqOk p hp) _ _

/-- C1 witness: a single event of 100,032 serialized bytes is failed locally
with the oversize error, appears in no HTTP call, and is never deferred. -/
theorem oversize_event_locally_failed_witness :
    (∃ r ∈ (fireBatch okTransport freshAgg [overEvent]).1.responses,
        r = { statusCode := 0, body := "", duration := 0,
              metadata := overEvent.metadata, err := some oversizeMsg }) ∧
    (∀ req ∈ (fireBatch okTransport freshAgg [overEvent]).2,
        overEvent ∉ req.events) ∧
    (∀ p ∈ (fireBatch okTransport freshAgg [overEvent]).1.overflowBatches,
        overEvent ∉ p.2) :=
  oversize_event_locally_failed okTransport freshAgg [overEvent] overEvent
    (by simp)
    (by rw [eventSize_overEvent]; norm_num [apiEventSizeMax])
    rfl
    (by intro p hp; cases hp)

/-- C4: within one wire batch the Nth per-event status object is mapped to
the Nth event placed in the batch: a server array of 202 then 429/error for
two events yields exactly one Response with status 202 and no error carrying
the first event's metadata and one Response with status 429 and the
"bratelimited" error carrying the second event's metadata, in that order —
the per-event error is never copied to the sibling's Response. -/
theorem batch_response_positional_mapping
    (t : Request → HttpResult) (b : BatchAgg) (e1 e2 : Event) (text : String)
    (h1 : eventSize e1 ≤ apiEventSizeMax) (h2 : eventSize e2 ≤ apiEventSizeMax)
    (hb : b.blockOnResponses = true)
    (ht : t (mkRequest e1 b.userAgentAddition [e1, e2]) =
      .response 200 (.readable text (some [⟨202, none⟩, ⟨429, some "bratelimited"⟩]))) :
    (fireBatch t b [e1, e2]).1.responses =
      b.responses ++
        [{ statusCode := 202, body := "", duration := b.dur,
           metadata := e1.metadata, err := none },
         { statusCode := 429, body := "", duration := b.dur,
           metadata := e2.metadata, err := some "bratelimited" }] ∧
    (fireBatch t b [e1, e2]).2.length = 1 := by
  have hne : ([e1, e2] : List Event) ≠ [] := by simp
  have hsmall : ∀ e ∈ [e1, e2], eventSize e ≤ apiEventSizeMax := by
    intro e he
    rcases List.mem_cons.mp he with h | h
    · subst h; exact h1
    · rcases List.mem_singleton.mp h with h
      subst h; exact h2
  have hfit : arraySize [e1, e2] ≤ apiMaxBatchSize := by
    rw [arraySize, if_neg (by simp)]
    simp only [List.map_cons, List.map_nil, List.sum_cons, List.sum_nil,
      List.length_cons, List.length_nil]
    simp only [apiMaxBatchSize, apiEventSizeMax] at h1 h2 ⊢
    omega
  rw [fireBatch_fits t b [e1, e2] hne hsmall hfit]
  simp only [List.head_cons]
  rw [ht]
  simp only [handleResult, if_pos rfl]
  obtain ⟨res, hEq, hBlk⟩ := enqueueAll_shape
    ((([e1, e2].zip [(⟨202, none⟩ : BatchStatus), ⟨429, some "bratelimited"⟩]).map
      fun p =>
        { statusCode := p.2.status, body := "", duration := b.dur,
          metadata := p.1.metadata, err := p.2.error }) : List Response) b
  rw [hEq]
  refine ⟨?_, rfl⟩
  show res = _
  rw [hBlk hb]
  simp [List.zip]

/-- C4 witness: the mapping at the test's concrete input — two events with
metadata "emmetta0" and "emmetta1" and the server array
202 then 429/"bratelimited". -/
theorem batch_response_positional_mapping_witness :
    (fireBatch brTransport freshAgg
        [smallEvent "emmetta0", smallEvent "emmetta1"]).1.responses =
      [{ statusCode := 202, body := "", duration := 10,
         metadata := "emmetta0", err := none },
       { statusCode := 429, body := "", duration := 10,
         metadata := "emmetta1", err := some "bratelimited" }] ∧
    (fireBatch brTransport freshAgg
        [smallEvent "emmetta0", smallEvent "emmetta1"]).2.length = 1 := by
  obtain ⟨hA, hB⟩ := batch_response_positional_mapping brTransport freshAgg
    (smallEvent "emmetta0") (smallEvent "emmetta1") ""
    (by decide) (by decide) rfl rfl
  exact ⟨by rw [hA]; rfl, hB⟩

/-- C7: when the HTTP exchange returns a non-success status code and the
response body cannot be read, every event of the batch receives a Response
whose error describes that an HTTP error code was received but the body
could not be read, including the underlying read failure's text. -/
theorem http_error_unreadable_body
    (t : Request → HttpResult) (b : BatchAgg) (l : List Event) (st : Nat) (msg : String)
    (hne : l ≠ []) (hsmall : ∀ e ∈ l, eventSize e ≤ apiEventSizeMax)
    (hfit : arraySize l ≤ apiMaxBatchSize) (hb : b.blockOnResponses = true)
    (hst : st ≠ 200)
    (ht : t (mkRequest (l.head hne) b.userAgentAddition l) =
      .response st (.unreadable msg)) :
    (fireBatch t b l).1.responses =
      b.responses ++
        l.map fun e =>
          { statusCode := 0, body := "", duration := b.dur, metadata := e.metadata,
            err := some
              ("Got HTTP error code but couldn't read response body: " ++ msg) } := by
  rw [fireBatch_fits t b l hne hsmall hfit, ht]
  simp only [handleResult, if_neg hst]
  obtain ⟨res, hEq, hBlk⟩ := enqueueAll_shape
    ((l.map fun e =>
      ({ statusCode := 0, body := "", duration := b.dur, metadata := e.metadata,
         err := some
           ("Got HTTP error code but couldn't read response body: " ++ msg) } :
        Response)) : List Response) b
  rw [hEq]
  show res = _
  exact hBlk hb

/-- C7 witness: a single-event batch against a 500 response with an
unreadable body yields exactly the descriptive read-failure Response naming
the underlying failure. -/
theorem http_error_unreadable_body_witness :
    (fireBatch erTransport freshAgg [smallEvent "emmetta"]).1.responses =
      [{ statusCode := 0, body := "", duration := 10, metadata := "emmetta",
         err := some
           "Got HTTP error code but couldn't read response body: mystery read error!" }] := by
  have h := http_error_unreadable_body erTransport freshAgg [smallEvent "emmetta"]
    500 "mystery read error!" (by simp) (by decide) (by decide) rfl (by decide) rfl
  rw [h]
  rfl

/-- C8: a batch whose serialized array is within the wire ceiling is sent in
exactly one POST: to `<APIHost>/1/batch/<Dataset>`, carrying the write key in
the credential header, the full ordered JSON array as the (pre-compression)
payload — the wire body being its gzip compression — and the versioned
client-identifier User-Agent, to which the caller-supplied addition, trimmed
of surrounding whitespace, is appended exactly when non-empty. -/
theorem single_post_request_shape
    (t : Request → HttpResult) (b : BatchAgg) (l : List Event)
    (hne : l ≠ []) (hsmall : ∀ e ∈ l, eventSize e ≤ apiEventSizeMax)
    (hfit : arraySize l ≤ apiMaxBatchSize) :
    ∃ req, (fireBatch t b l).2 = [req] ∧
      req.events = l ∧
      req.url = (l.head hne).apiHost ++ "/1/batch/" ++ (l.head hne).dataset ∧
      req.teamHeader = (l.head hne).writeKey ∧
      req.userAgent = userAgentHeader b.userAgentAddition ∧
      requestPayload req = "[" ++ joinComma (l.map encodeEvent) ++ "]" ∧
      (trimStr b.userAgentAddition = "" →
        req.userAgent = "libhoney-go/" ++ libVersion) ∧
      (trimStr b.userAgentAddition ≠ "" →
        req.userAgent =
          "libhoney-go/" ++ libVersion ++ " " ++ trimStr b.userAgentAddition) := by
  refine ⟨mkRequest (l.head hne) b.userAgentAddition l, ?_, rfl, rfl, rfl, rfl, rfl,
    ?_, ?_⟩
  · rw [fireBatch_fits t b l hne hsmall hfit]
  · intro h
    simp [mkRequest, userAgentHeader, h]
  · intro h
    simp [mkRequest, userAgentHeader, h]

/-- C8 witness: one small event with the test's User-Agent addition
"  fancyApp/3 " is POSTed once to the expected URL with the write key header
and the versioned User-Agent extended by the trimmed addition. -/
theorem single_post_request_shape_witness :
    ∃ req,
      (fireBatch okTransport { freshAgg with userAgentAddition := "  fancyApp/3 " }
        [smallEvent "emmetta"]).2 = [req] ∧
      req.url = "fakeHost/1/batch/ds1" ∧
      req.teamHeader = "written" ∧
      req.userAgent = "libhoney-go/1.5.0 fancyApp/3" := by
  obtain ⟨req, hcalls, hev, hurl, hteam, hua, hpay, hblank, htrim⟩ :=
    single_post_request_shape okTransport
      { freshAgg with userAgentAddition := "  fancyApp/3 " }
      [smallEvent "emmetta"] (by simp) (by decide) (by decide)
  refine ⟨req, hcalls, ?_, ?_, ?_⟩
  · rw [hurl]; rfl
  · rw [hteam]; rfl
  · rw [htrim (by decide)]; rfl

/-- C5: under non-blocking submission (the default), `Add` either enqueues
the event (queue has room; no response is produced) or — when the queue is
full — leaves the queue untouched, discards the event, and pushes a
"queue overflow" Response with status code 0 through the response channel
under that channel's own delivery policy; exactly one of the two happens. -/
theorem txAdd_queue_overflow (c : TxClient) (e : Event)
    (hbs : c.blockOnSend = false) :
    (c.work.length < c.workCap →
      txAdd c e = { c with work := c.work ++ [e] }) ∧
    (¬ c.work.length < c.workCap →
      (txAdd c e).work = c.work ∧
      (txAdd c e).responses =
        (chanPush c.responseCap c.blockOnResponses c.responses
          { statusCode := 0, body := "", duration := 0, metadata := e.metadata,
            err := some "queue overflow" }).1) := by
  constructor
  · intro h
    simp [txAdd, hbs, h]
  · intro h
    constructor <;>
      simp [txAdd, hbs, h, queueOverflowResponse, errResponse]

/-- C5 witness: submitting to a work queue of capacity 0 never enqueues the
event and immediately produces the "queue overflow" Response. -/
theorem txAdd_queue_overflow_witness :
    (txAdd fullClient (smallEvent "mmeetta")).work = [] ∧
    (txAdd fullClient (smallEvent "mmeetta")).responses =
      [{ statusCode := 0, body := "", duration := 0, metadata := "mmeetta",
         err := some "queue overflow" }] := by
  obtain ⟨-, h2⟩ := txAdd_queue_overflow fullClient (smallEvent "mmeetta") rfl
  obtain ⟨hw, hr⟩ := h2 (by decide)
  exact ⟨hw, by rw [hr]; rfl⟩

/-- C6: the response channel's delivery policy, from the
`WriterOutput.SendResponse` source: under blocking delivery the push always
delivers (the call waits for room rather than dropping); under non-blocking
delivery (the default) the push never waits — it delivers when the channel
has room and otherwise drops the response silently, leaving the channel
unchanged and returning the dropped flag. -/
theorem sendResponse_delivery_policy (w : WriterOutput) (r : Response) :
    (w.blockOnResponses = true →
      w.sendResponse r = ({ w with responses := w.responses ++ [r] }, false)) ∧
    (w.blockOnResponses = false → w.responses.length < w.responseQueueSize →
      w.sendResponse r = ({ w with responses := w.responses ++ [r] }, false)) ∧
    (w.blockOnResponses = false → ¬ w.responses.length < w.responseQueueSize →
      w.sendResponse r = (w, true)) := by
  refine ⟨fun h => ?_, fun h h2 => ?_, fun h h2 => ?_⟩
  · simp [WriterOutput.sendResponse, h]
  · simp [WriterOutput.sendResponse, h, h2]
  · simp [WriterOutput.sendResponse, h, h2]

/-- C6 witness: a full channel under non-blocking delivery drops the
response and leaves the state unchanged; the same full channel under
blocking delivery still delivers it. -/
theorem sendResponse_delivery_policy_witness :
    fullWriter.sendResponse placeholderResp = (fullWriter, true) ∧
    ({ fullWriter with blockOnResponses := true }.sendResponse placeholderResp =
      ({ fullWriter with
          blockOnResponses := true,
          responses := [placeholderResp, placeholderResp] }, false)) := by
  constructor
  · exact (sendResponse_delivery_policy fullWriter placeholderResp).2.2 rfl (by decide)
  · have h := (sendResponse_delivery_policy
      { fullWriter with blockOnResponses := true } placeholderResp).1 rfl
    rw [h]
    rfl

theorem sendResponse_written (w : WriterOutput) (r : Response) :
    (w.sendResponse r).1.written = w.written := by
  rw [WriterOutput.sendResponse]
  split_ifs <;> rfl

theorem sendResponse_responses (w : WriterOutput) (r : Response)
    (h : w.responses.length < w.responseQueueSize ∨ w.blockOnResponses = true) :
    (w.sendResponse r).1.responses = w.responses ++ [r] := by
  rw [WriterOutput.sendResponse]
  rcases h with h | h
  · split_ifs <;> rfl
  · rw [if_pos h]

/-- C9: the synchronous writer sink serializes each event as one JSON line —
`data` always; `samplerate`, `time` and `dataset` only when non-default (for
every data map, an event with sample rate 1, zero timestamp and empty
dataset yields just the data object) — and in particular the all-default
empty event yields exactly the line with the empty data object, while the
sample-rate-2, timestamped, dataset-carrying key/val event yields exactly
the full four-field line. -/
theorem writer_serialization :
    (∀ (w : WriterOutput) (e : Event), w.writeFails = false →
      (writerAdd w e).written = w.written ++ [writerLine e]) ∧
    (∀ d : List (String × JVal), writerDataFails d = false →
      writerLine
        { apiHost := "", writeKey := "", dataset := "", sampleRate := 1,
          timestamp := none, metadata := "", data := d } =
        "\x7b\"data\":" ++ encodeData d ++ "\x7d\n") ∧
    writerLine writerEvent1 = "\x7b\"data\":\x7b\x7d\x7d\n" ∧
    writerLine writerEvent2 =
      "\x7b\"data\":\x7b\"key\":\"val\"\x7d,\"samplerate\":2,\"time\":\"0001-01-01T00:00:01Z\",\"dataset\":\"dataset\"\x7d\n" := by
  refine ⟨?_, ?_, by decide, by decide⟩
  · intro w e hw
    rw [writerAdd]
    rw [if_neg (by simp [hw])]
    rw [sendResponse_written]
  · intro d hd
    simp [writerLine, writerMarshal, hd]
    rw [String.append_assoc]
    rfl

/-- C9 witness: adding the all-default event to a fresh writer writes
exactly the one expected JSON line. -/
theorem writer_serialization_witness :
    (writerAdd freshWriter writerEvent1).written = ["\x7b\"data\":\x7b\x7d\x7d\n"] := by
  have h1 := writer_serialization.1 freshWriter writerEvent1 rfl
  have h3 := writer_serialization.2.2.1
  rw [h1, h3]
  rfl

/-- C10: for every event passed to the writer sink's Add, exactly one
Response is emitted (given the channel can accept it: room available or
blocking delivery), whose metadata equals the event's metadata and whose
status code, body, duration and error are all zero or nil — regardless of
the event's data (a marshal failure is ignored) and regardless of whether
the write to the underlying stream fails (also ignored): neither error ever
surfaces in the Response. -/
theorem writer_add_response (w : WriterOutput) (e : Event)
    (hroom : w.responses.length < w.responseQueueSize ∨ w.blockOnResponses = true) :
    (writerAdd w e).responses =
      w.responses ++
        [{ statusCode := 0, body := "", duration := 0, metadata := e.metadata,
           err := none }] := by
  rw [writerAdd]
  have hresp : (if w.writeFails then w
      else { w with written := w.written ++ [writerLine e] }).responses =
      w.responses := by
    split_ifs <;> rfl
  have hcap : (if w.writeFails then w
      else { w with written := w.written ++ [writerLine e] }).responseQueueSize =
      w.responseQueueSize := by
    split_ifs <;> rfl
  have hblk : (if w.writeFails then w
      else { w with written := w.written ++ [writerLine e] }).blockOnResponses =
      w.blockOnResponses := by
    split_ifs <;> rfl
  rw [sendResponse_responses _ _ (by rw [hresp, hcap, hblk]; exact hroom), hresp]

/-- C10 witness: even with an unmarshalable data value and a failing output
stream, Add emits exactly the one all-zero Response carrying the event's
metadata. -/
theorem writer_add_response_witness :
    (writerAdd failingWriter badEvent).responses =
      [{ statusCode := 0, body := "", duration := 0, metadata := "badmeta",
         err := none }] := by
  have h := writer_add_response failingWriter badEvent (Or.inl (by decide))
  rw [h]
  rfl

end Libhoney
